import Mathlib

/-
Verification development for the GSatMicroListener rendezvous-and-patrol
planning engine.

The Python sources are shallowly embedded over the rationals.  External
numeric library calls made by the Python code (geopy's geodesic distance,
math.sqrt, math.atan2/cos/sin used for pattern rotation, numpy's exp) are
modelled by an explicit `Geo` oracle record of abstract functions; theorems
that need analytic facts about those functions (sqrt of a non-negative
number squares back, exp is positive, a point is at distance zero from
itself) take them as hypotheses, and concrete witnesses instantiate the
oracle with executable rational functions.
-/

namespace GSat

/-- Cartesian point in the drifter-anchored tangent plane
(WayPoint.py, class Point). -/
structure Pt where
  x : ℚ
  y : ℚ
deriving DecidableEq, Repr

instance : Add Pt := ⟨fun a b => ⟨a.x + b.x, a.y + b.y⟩⟩

instance : Sub Pt := ⟨fun a b => ⟨a.x - b.x, a.y - b.y⟩⟩

/-- Point.__mul__ with a scalar (WayPoint.py line 76). -/
def Pt.smul (a : Pt) (r : ℚ) : Pt := ⟨a.x * r, a.y * r⟩

/-- Point.dot (WayPoint.py line 91). -/
def Pt.dot (a b : Pt) : ℚ := a.x * b.x + a.y * b.y

/-- Geographic coordinate pair (WayPoint.py, class LatLon). -/
structure LatLon where
  lat : ℚ
  lon : ℚ
deriving DecidableEq, Repr

/-- Oracle for the external numeric libraries used by the Python code:
geopy geodesic conversions, math.sqrt, trigonometric pattern rotation
and numpy exp.  Each planning function takes the oracle as a parameter;
analytic facts about the oracle appear as theorem hypotheses. -/
structure Geo where
  /-- LatLon.delta (WayPoint.py lines 108-120): signed east/north metric
  offset of the second point relative to the first. -/
  delta : LatLon → LatLon → Pt
  /-- meters per degree of latitude at a point (geodesic between ±0.5°). -/
  latPerDeg : LatLon → ℚ
  /-- meters per degree of longitude at a point (geodesic between ±0.5°). -/
  lonPerDeg : LatLon → ℚ
  /-- Point.rotate by the heading angle atan2(v.y, v.x) of a velocity
  vector (WayPoint.py lines 82-89 with theta from line 150). -/
  rotate : Pt → Pt → Pt
  /-- math.sqrt. -/
  sqrt : ℚ → ℚ
  /-- numpy exp. -/
  exp : ℚ → ℚ
  /-- Modelled from the spec: geodesic point-to-point distance in meters
  (GeoProjection.distance).  WayPoints.py calls `wpt.wpt.distance(...)`
  but no `distance` method appears on `LatLon` in src/WayPoint.py; the
  spec's §4.1 geodesic distance is taken as the intended callee. -/
  dist : LatLon → LatLon → ℚ

/-- Drifter state (WayPoint.py, class Drifter): position and velocity.
The derived heading angle theta is folded into the rotation oracle. -/
structure Drifter where
  latLon : LatLon
  v : Pt
deriving DecidableEq, Repr

/-- Glider state (WayPoint.py, class Glider). -/
structure Glider where
  latLon : LatLon
  speed : ℚ
deriving DecidableEq, Repr

/-- Depth-averaged current (WayPoint.py, class Water). -/
structure Water where
  v : Pt
deriving DecidableEq, Repr

/-- Pattern catalog entry (WayPoint.py, class Pattern). -/
structure Pattern where
  offset : Pt
  qRotate : Bool
deriving DecidableEq, Repr

/-- Failure modes of the planning pipeline.  The first three correspond to
the three `raise Exception(...)` branches of WayPoint.__dt; the last models
the IndexError a lookup in an empty pattern catalog would raise. -/
inductive DtErr where
  | NoSolution
  | NoRealSolution
  | NoFutureSolution
  | EmptyPatterns
deriving DecidableEq, Repr

/-- Pattern.rotate (WayPoint.py line 181): rotate the offset by the
drifter heading when qRotate is set, else use it unrotated. -/
def target0 (g : Geo) (d : Drifter) (p : Pattern) : Pt :=
  if p.qRotate then g.rotate p.offset d.v else p.offset

/-- Initial target-to-glider separation `target0 - glider0`
(WayPoint.py lines 200-201 and 218). -/
def d0Of (g : Geo) (d : Drifter) (gl : Glider) (p : Pattern) : Pt :=
  target0 g d p - g.delta d.latLon gl.latLon

/-- Quadratic coefficient a = |V-U|^2 - speed^2 (WayPoint.py line 223). -/
def dtA (d : Drifter) (gl : Glider) (w : Water) : ℚ :=
  (d.v - w.v).dot (d.v - w.v) - gl.speed * gl.speed

/-- Quadratic coefficient b = 2 (target0-glider0)·(V-U)
(WayPoint.py line 224). -/
def dtB (g : Geo) (d : Drifter) (gl : Glider) (w : Water) (p : Pattern) : ℚ :=
  2 * (d0Of g d gl p).dot (d.v - w.v)

/-- Quadratic coefficient c = |target0-glider0|^2 (WayPoint.py line 225). -/
def dtC (g : Geo) (d : Drifter) (gl : Glider) (p : Pattern) : ℚ :=
  (d0Of g d gl p).dot (d0Of g d gl p)

/-- Discriminant term = b*b - 4*a*c of the intercept quadratic
(WayPoint.py line 230). -/
def dtDisc (g : Geo) (d : Drifter) (gl : Glider) (w : Water) (p : Pattern) : ℚ :=
  dtB g d gl w p * dtB g d gl w p - 4 * dtA d gl w * dtC g d gl p

/-- Root tp = (-b + sqrt(term)) / (2a) (WayPoint.py line 237). -/
def dtTp (g : Geo) (d : Drifter) (gl : Glider) (w : Water) (p : Pattern) : ℚ :=
  (-dtB g d gl w p + g.sqrt (dtDisc g d gl w p)) / (2 * dtA d gl w)

/-- Root tm = (-b - sqrt(term)) / (2a) (WayPoint.py line 238). -/
def dtTm (g : Geo) (d : Drifter) (gl : Glider) (w : Water) (p : Pattern) : ℚ :=
  (-dtB g d gl w p - g.sqrt (dtDisc g d gl w p)) / (2 * dtA d gl w)

/-- WayPoint.__dt (WayPoint.py lines 216-247): solve the intercept
quadratic for the time to the waypoint. -/
def wayPointDt (g : Geo) (d : Drifter) (gl : Glider) (w : Water) (p : Pattern) :
    Except DtErr ℚ :=
  if dtA d gl w = 0 then .error .NoSolution
  else if dtDisc g d gl w p < 0 then .error .NoRealSolution
  else if dtTp g d gl w p < 0 then
    if dtTm g d gl w p < 0 then .error .NoFutureSolution
    else .ok (dtTm g d gl w p)
  else if dtTm g d gl w p < 0 then .ok (dtTp g d gl w p)
  else .ok (min (dtTm g d gl w p) (dtTp g d gl w p))

/-- LatLon.degMin (WayPoint.py lines 133-139): encode a degree value as
degrees*100 + decimal minutes, preserving sign. -/
def degMin (x : ℚ) : ℚ :=
  let a := |x|
  let deg : ℤ := ⌊a⌋
  let minutes := (a - ⌊a⌋) * 60
  let val := deg * 100 + minutes
  if 0 ≤ x then val else -val


/-- LatLon.translate (WayPoint.py lines 122-131): move a geographic point
by a Cartesian distance using the local meters-per-degree scales. -/
def translate (g : Geo) (ll : LatLon) (dist : Pt) : LatLon :=
  ⟨ll.lat + dist.y / g.latPerDeg ll, ll.lon + dist.x / g.lonPerDeg ll⟩

/-- A solved leg as built by WayPoint.__init__ and WayPoint.__mkWaypoint
(WayPoint.py lines 184-258): the time to intercept, the waypoint, and the
advanced drifter and glider states used to chain the next leg. -/
structure WayPoint where
  dt : ℚ
  wpt : LatLon
  drifter1 : Drifter
  glider1 : Glider
deriving DecidableEq, Repr

/-- WayPoint construction (WayPoint.py lines 184-258): solve for dt, then
advance.  delta = drifter.v * dt; the waypoint is the drifter position
translated by delta + (target0 - drifter0) with drifter0 = (0,0); the new
drifter is the old one translated by delta with unchanged velocity; the
new glider sits at the waypoint with unchanged speed. -/
def mkWayPoint (g : Geo) (d : Drifter) (gl : Glider) (w : Water)
    (p : Pattern) : Except DtErr WayPoint :=
  match wayPointDt g d gl w p with
  | .error e => .error e
  | .ok dtv =>
    let delta := d.v.smul dtv
    let drifter0 : Pt := ⟨0, 0⟩
    let wpt := translate g d.latLon (delta + (target0 g d p - drifter0))
    let dpos := translate g d.latLon delta
    .ok ⟨dtv, wpt, ⟨dpos, d.v⟩, ⟨wpt, gl.speed⟩⟩

/-- One element of the WayPoints list (WayPoints.py line 47):
(wpt, cumulative dt, pattern index). -/
abbrev Leg := WayPoint × ℚ × ℕ

/-- Default leg used with List.getD. -/
def dLeg : Leg := (⟨0, ⟨0, 0⟩, ⟨⟨0, 0⟩, ⟨0, 0⟩⟩, ⟨⟨0, 0⟩, 0⟩⟩, 0, 0)

/-- Cumulative time recorded on the last appended leg (0 for no legs):
the loop variable `dt` of WayPoints.__init__. -/
def cumOf (legs : List Leg) : ℚ :=
  match legs.getLast? with
  | some l => l.2.1
  | none => 0

/-- Index wrap-around of WayPoints.__init__ (WayPoints.py lines 43-44):
`if index >= len(patterns): index = 0`. -/
def wrapIdx (pats : List Pattern) (idx : ℕ) : ℕ :=
  if pats.length ≤ idx then 0 else idx

/-- The leg-building while-loop of WayPoints.__init__ (WayPoints.py lines
34-50).  The loop guard, index wrap-around, chaining of drifter/glider
state and cumulative time mirror the source; `fuel` only bounds the
recursion and is chosen as wptsCount at the top-level call, which the
guard `legs.length < count` makes sufficient. -/
def loopGo (g : Geo) (w : Water) (pats : List Pattern) (tgt : ℚ)
    (count : ℕ) :
    ℕ → Drifter → Glider → ℚ → ℕ → List Leg → Except DtErr (List Leg)
  | 0, _, _, _, _, legs => .ok legs
  | fuel+1, drft, gld, dtAcc, idx, legs =>
    if (dtAcc ≤ tgt ∨ legs.length < 2) ∧ legs.length < count then
      match pats[wrapIdx pats idx]? with
      | none => .error .EmptyPatterns
      | some p =>
        match mkWayPoint g drft gld w p with
        | .error e => .error e
        | .ok wpt =>
          loopGo g w pats tgt count fuel wpt.drifter1 wpt.glider1
            (dtAcc + wpt.dt) (wrapIdx pats idx + 1)
            (legs ++ [(wpt, dtAcc + wpt.dt, wrapIdx pats idx)])
    else .ok legs

/-- WayPoints.__init__ with an explicit startIndex (WayPoints.py lines
16-50): build the leg list with target duration wptsTgtDuration and
maximum count wptsCount. -/
def wayPointsPlan (g : Geo) (d : Drifter) (gl : Glider) (w : Water)
    (pats : List Pattern) (tgt : ℚ) (count : ℕ) (idx : ℕ) :
    Except DtErr (List Leg) :=
  loopGo g w pats tgt count count d gl 0 idx []

/-- One row of the waypoints history table as read back in
WayPoints.__qGenGoto (WayPoints.py lines 140-159) and destructured in
__checkForward/__closeEnough: (t, iWaypoint, latitude, longitude,
iPattern, distance, dt). -/
structure PrevRec where
  t : ℚ
  iwpt : ℕ
  lat : ℚ
  lon : ℚ
  index : ℕ
  dist : ℚ
  dt : ℚ
deriving DecidableEq, Repr

/-- Default record used with List.getD. -/
def dRec : PrevRec := ⟨0, 0, 0, 0, 0, 0, 0⟩

/-- Loop of WayPoints.__checkForward (WayPoints.py lines 110-119) over
the positionally paired legs (range min(len(prev), len(self))): fail on a
pattern-index mismatch or a distance beyond the radius, else accumulate
the record's dt into totalTime and the distance into maxDist. -/
def cfLoop (g : Geo) (radius : ℚ) :
    List (Leg × PrevRec) → ℚ → ℚ → Option (ℚ × ℚ)
  | [], tot, mx => some (tot, mx)
  | (leg, r) :: rest, tot, mx =>
    if leg.2.2 ≠ r.index then none
    else if radius < g.dist leg.1.wpt ⟨r.lat, r.lon⟩ then none
    else cfLoop g radius rest (tot + r.dt)
      (max mx (g.dist leg.1.wpt ⟨r.lat, r.lon⟩))

/-- WayPoints.__checkForward (WayPoints.py lines 106-121): run the paired
comparison; on success return maxDist when totalTime reaches
wptsMinDuration, else None. -/
def checkForward (g : Geo) (radius minDur : ℚ) (self : List Leg)
    (prev : List PrevRec) : Option ℚ :=
  match cfLoop g radius (self.zip prev) 0 0 with
  | none => none
  | some (tot, mx) => if minDur ≤ tot then some mx else none

/-- Loop of WayPoints.__closeEnough (WayPoints.py lines 125-130): for
each suffix of prev whose head's pattern index equals the first leg's,
try __checkForward; return its value on success. -/
def ceLoop (g : Geo) (radius minDur : ℚ) (self : List Leg) (iSelf : ℕ) :
    List PrevRec → Option ℚ
  | [] => none
  | r :: rest =>
    if r.index = iSelf then
      match checkForward g radius minDur self (r :: rest) with
      | some mx => some mx
      | none => ceLoop g radius minDur self iSelf rest
    else ceLoop g radius minDur self iSelf rest

/-- WayPoints.__closeEnough (WayPoints.py lines 123-132).  The source
reads self[0] and would raise IndexError on an empty plan, which its
caller rules out (a plan always has at least one leg); the empty case is
mapped to None here. -/
def closeEnough (g : Geo) (radius minDur : ℚ) (self : List Leg)
    (prev : List PrevRec) : Option ℚ :=
  match self with
  | [] => none
  | l0 :: _ => ceLoop g radius minDur self l0.2.2 prev

/-- Loop of WayPoints.__findClosest (WayPoints.py lines 66-83): solve
every pattern in order, tracking the smallest dt and its index; a solver
failure is not caught and propagates (the method has no try/except). -/
def fcAux (g : Geo) (d : Drifter) (gl : Glider) (w : Water) :
    List Pattern → ℕ → Option (ℚ × ℕ) → Except DtErr (Option ℕ)
  | [], _, best => .ok (best.map Prod.snd)
  | p :: rest, i, best =>
    match wayPointDt g d gl w p with
    | .error e => .error e
    | .ok dtv =>
      match best with
      | none => fcAux g d gl w rest (i + 1) (some (dtv, i))
      | some (tMin, bidx) =>
        if dtv < tMin then fcAux g d gl w rest (i + 1) (some (dtv, i))
        else fcAux g d gl w rest (i + 1) (some (tMin, bidx))

/-- WayPoints.__findClosest (WayPoints.py lines 66-83): the pattern index
closest in time (None for an empty catalog). -/
def findClosest (g : Geo) (d : Drifter) (gl : Glider) (w : Water)
    (pats : List Pattern) : Except DtErr (Option ℕ) :=
  fcAux g d gl w pats 0 none

/-- The dt a successful solver call returns (0 when it fails); used to
state the closest-in-time property. -/
def solvedDt (g : Geo) (d : Drifter) (gl : Glider) (w : Water)
    (p : Pattern) : ℚ :=
  match wayPointDt g d gl w p with
  | .ok q => q
  | .error _ => 0

/-- Index of the first minimum of a list of rationals (0 for empty). -/
def firstMinIdx : List ℚ → ℕ
  | [] => 0
  | [_] => 0
  | x :: y :: rest =>
    if (y :: rest).getD (firstMinIdx (y :: rest)) 0 < x then
      firstMinIdx (y :: rest) + 1
    else 0

/-- A drifter GPS fix row as fetched by Drifter.__fetch (Drifter.py
lines 57-77): t, latitude, longitude, accuracy; rows are ordered most
recent first (ORDER BY t desc). -/
structure Fix where
  t : ℚ
  lat : ℚ
  lon : ℚ
  accuracy : ℚ
deriving DecidableEq, Repr

/-- Default fix used with List.getD. -/
def dFix : Fix := ⟨0, 0, 0, 0⟩

/-- Maximum of a list of rationals (0 for the empty list): the pandas
max over a column. -/
def maxOf : List ℚ → ℚ
  | [] => 0
  | x :: xs => xs.foldl max x

/-- dt_i = t_i - max(t) in seconds, non-positive (Drifter.py line 86). -/
def fixDts (rows : List Fix) : List ℚ :=
  rows.map (fun r => r.t - maxOf (rows.map Fix.t))

/-- Accuracy weight 1 / (accuracy / metersPerDegree)^2 (Drifter.py
lines 95-98). -/
def accW (perDeg : ℚ) (r : Fix) : ℚ := 1 / (r.accuracy / perDeg) ^ 2

/-- Per-axis regression weights (Drifter.py lines 95-105): normalize the
accuracy weight by its maximum, multiply by the time weight
exp(dt / tau), then normalize the product by its own maximum.  tau here
is in seconds (the source passes drifterTau minutes * 60). -/
def axisWeights (g : Geo) (perDeg tau : ℚ) (rows : List Fix) : List ℚ :=
  let wa := rows.map (accW perDeg)
  let wan := wa.map (fun v => v / maxOf wa)
  let wt := (fixDts rows).map (fun dtv => g.exp (dtv / tau))
  let comb := List.zipWith (fun a b => a * b) wan wt
  comb.map (fun v => v / maxOf comb)

/-- Weighted sum of products over paired lists. -/
def wsum2 : List ℚ → List ℚ → ℚ
  | wv :: ws, x :: xs => wv * x + wsum2 ws xs
  | _, _ => 0

/-- Weighted mean, as used by sklearn's weighted centering. -/
def wmean (ws xs : List ℚ) : ℚ := wsum2 ws xs / ws.sum

/-- Weighted triple sum over paired lists. -/
def sum3 (f : ℚ → ℚ → ℚ → ℚ) : List ℚ → List ℚ → List ℚ → ℚ
  | wv :: ws, x :: xs, y :: ys => f wv x y + sum3 f ws xs ys
  | _, _, _ => 0

/-- Weighted least-squares slope of y against x, the closed form of
sklearn's LinearRegression with sample weights (Drifter.py lines
107-113).  For a degenerate design (zero weighted variance, e.g. all
timestamps identical), scipy's lstsq returns the minimum-norm solution:
slope 0. -/
def wlsSlope (ws xs ys : List ℚ) : ℚ :=
  let xb := wmean ws xs
  let yb := wmean ws ys
  let den := sum3 (fun wv x _ => wv * (x - xb) ^ 2) ws xs xs
  let num := sum3 (fun wv x y => wv * (x - xb) * (y - yb)) ws xs ys
  if den = 0 then 0 else num / den

/-- The columns of the frame Drifter.estimate returns (Drifter.py lines
109-120): lat, vy, lon, vx, latPerDeg, lonPerDeg. -/
structure DrifterInfo where
  lat : ℚ
  vy : ℚ
  lon : ℚ
  vx : ℚ
  latPerDeg : ℚ
  lonPerDeg : ℚ
deriving DecidableEq, Repr

/-- The latitude regression slope (lm.coef_ of the lat fit). -/
def latSlopeOf (g : Geo) (tau : ℚ) (rows : List Fix) : ℚ :=
  match rows with
  | [] => 0
  | r0 :: _ =>
    wlsSlope (axisWeights g (g.latPerDeg ⟨r0.lat, r0.lon⟩) tau rows)
      (fixDts rows) (rows.map Fix.lat)

/-- The longitude regression slope (lm.coef_ of the lon fit). -/
def lonSlopeOf (g : Geo) (tau : ℚ) (rows : List Fix) : ℚ :=
  match rows with
  | [] => 0
  | r0 :: _ =>
    wlsSlope (axisWeights g (g.lonPerDeg ⟨r0.lat, r0.lon⟩) tau rows)
      (fixDts rows) (rows.map Fix.lon)

/-- Drifter.estimate (Drifter.py lines 79-120): None when no rows were
fetched; otherwise fit a weighted line per axis against dt, predict the
position at tt = tQuery - tMax (tMax is the first, most recent row's t),
and convert each slope to a velocity component through the geodesic
distance between the first fix and the first fix displaced by the slope
in degrees.  geopy's distance is a magnitude, so vx and vy carry no
sign. -/
def estimate (g : Geo) (tau tQuery : ℚ) (rows : List Fix) :
    Option DrifterInfo :=
  match rows with
  | [] => none
  | r0 :: _ =>
    let tt := tQuery - r0.t
    let anchor : LatLon := ⟨r0.lat, r0.lon⟩
    let latPD := g.latPerDeg anchor
    let lonPD := g.lonPerDeg anchor
    let wLat := axisWeights g latPD tau rows
    let wLon := axisWeights g lonPD tau rows
    let dts := fixDts rows
    let lats := rows.map Fix.lat
    let lons := rows.map Fix.lon
    let latHat := wmean wLat lats - latSlopeOf g tau rows * wmean wLat dts +
      latSlopeOf g tau rows * tt
    let lonHat := wmean wLon lons - lonSlopeOf g tau rows * wmean wLon dts +
      lonSlopeOf g tau rows * tt
    let vy := g.dist anchor ⟨r0.lat + latSlopeOf g tau rows, r0.lon⟩
    let vx := g.dist anchor ⟨r0.lat, r0.lon + lonSlopeOf g tau rows⟩
    some ⟨latHat, vy, lonHat, vx, latPD, lonPD⟩

/-- Concrete oracle instantiation used by witnesses and counterexamples:
a flat tangent plane at 111000 m per degree, a sqrt table covering the
discriminants that arise, exp frozen at 1, and the taxicab flat metric.
Every concrete scenario below only exercises the oracle at inputs where
these values agree with the real geodesic/sqrt/exp ones. -/
def cG : Geo where
  delta := fun a b => ⟨(b.lon - a.lon) * 111000, (b.lat - a.lat) * 111000⟩
  latPerDeg := fun _ => 111000
  lonPerDeg := fun _ => 111000
  rotate := fun off _ => off
  sqrt := fun q => if q = 100 then 10 else 0
  exp := fun _ => 1
  dist := fun a b => |b.lat - a.lat| * 111000 + |b.lon - a.lon| * 111000

/-- Drifter at (44,-124), at rest. -/
def cD1 : Drifter := ⟨⟨44, -124⟩, ⟨0, 0⟩⟩

/-- Glider co-located with the drifter, speed 1 m/s. -/
def cGl1 : Glider := ⟨⟨44, -124⟩, 1⟩

/-- Zero current. -/
def cW0 : Water := ⟨⟨0, 0⟩⟩

/-- Unrotated pattern offset (3,4): 5 m from the glider. -/
def cP34 : Pattern := ⟨⟨3, 4⟩, false⟩

/-- Unrotated zero pattern offset: the target sits on the drifter. -/
def cPat0 : Pattern := ⟨⟨0, 0⟩, false⟩

/-- Drifter moving east at 1 m/s. -/
def cDfast : Drifter := ⟨⟨44, -124⟩, ⟨1, 0⟩⟩

/-- Glider co-located with the drifter but with zero speed. -/
def cGl0 : Glider := ⟨⟨44, -124⟩, 0⟩

/-- Unrotated pattern offset (0,1): 1 m north of the drifter. -/
def cPup : Pattern := ⟨⟨0, 1⟩, false⟩

/-- History record identical to the trivial leg's waypoint, 60 s long. -/
def cRecSame : PrevRec := ⟨0, 0, 44, -124, 0, 0, 60⟩

/-- History record whose waypoint is 1 degree (111 km) north. -/
def cRecFar : PrevRec := ⟨0, 0, 45, -124, 0, 0, 60⟩

/-- Most recent fix at (44,-124), accuracy 1 m. -/
def cFixA : Fix := ⟨0, 44, -124, 1⟩

/-- Fix at t = 5. -/
def cFixB : Fix := ⟨5, 44, -124, 1⟩

/-- Fix sharing cFixB's timestamp, different position and accuracy. -/
def cFixB2 : Fix := ⟨5, 44 + 1 / 1000, -124, 2⟩

/-- Fix 100 s older than cFixA and 0.001 degrees farther north: the
drifter moved south over the window, a negative latitude slope. -/
def cFixOld : Fix := ⟨-100, 44 + 1 / 1000, -124, 1⟩

/-- The leg the trivial scenario produces: dt = 0, everything stays at
(44,-124). -/
def cWptTriv : WayPoint :=
  ⟨0, ⟨44, -124⟩, ⟨⟨44, -124⟩, ⟨0, 0⟩⟩, ⟨⟨44, -124⟩, 1⟩⟩

/-! ### Theorems -/

@[simp] lemma Pt.add_mk (a b : Pt) : a + b = ⟨a.x + b.x, a.y + b.y⟩ := rfl

@[simp] lemma Pt.sub_mk (a b : Pt) : a - b = ⟨a.x - b.x, a.y - b.y⟩ := rfl

/-- C8: for every degree value x, the goto coordinate encoding returns
sign(x) * (floor(|x|) * 100 + (|x| mod 1) * 60); in particular 44.5
encodes as 4430 and -124.25 encodes as -12415. -/
theorem degMin_spec :
    (∀ x : ℚ, degMin x =
      (if x < 0 then
        -((⌊|x|⌋ : ℚ) * 100 + (|x| - ⌊|x|⌋) * 60)
      else
        (⌊|x|⌋ : ℚ) * 100 + (|x| - ⌊|x|⌋) * 60)) ∧
    degMin (89 / 2) = 4430 ∧ degMin (-497 / 4) = -12415 := by
  have ha1 : |(89 : ℚ) / 2| = 89 / 2 := abs_of_nonneg (by norm_num)
  have ha2 : |(497 : ℚ) / 4| = 497 / 4 := abs_of_nonneg (by norm_num)
  have hf1 : ⌊(89 : ℚ) / 2⌋ = 44 := by
    rw [Int.floor_eq_iff] <;> norm_num
  have hf2 : ⌊(497 : ℚ) / 4⌋ = 124 := by
    rw [Int.floor_eq_iff] <;> norm_num
  refine ⟨fun x => ?_, by norm_num [degMin, Int.fract, ha1, hf1],
    by norm_num [degMin, Int.fract, ha2, hf2]⟩
  unfold degMin
  rcases lt_or_le x 0 with h | h
  · simp [not_le.mpr h, h]
  · simp [h, not_lt.mpr h]


/-- Roots of a non-degenerate quadratic with an explicit square root R of
the discriminant: t is a root iff t is one of the two closed-form roots. -/
lemma quadRootIff (a b c R t : ℚ) (ha : a ≠ 0)
    (hR : R * R = b * b - 4 * a * c) :
    a * t ^ 2 + b * t + c = 0 ↔
      t = (-b + R) / (2 * a) ∨ t = (-b - R) / (2 * a) := by
  have key : a * t ^ 2 + b * t + c =
      a * (t - (-b + R) / (2 * a)) * (t - (-b - R) / (2 * a)) := by
    field_simp
    linear_combination a * hR
  rw [key, mul_eq_zero, mul_eq_zero]
  simp [ha, sub_eq_zero, or_assoc]

/-- C1: for every drifter state, glider state, current vector and pattern,
the single-leg solver forms a = |V-U|^2 - speed^2,
b = 2 (target0-glider0)·(V-U), c = |target0-glider0|^2 and: fails
NoSolution iff a = 0; otherwise fails NoRealSolution iff b^2 - 4ac < 0;
otherwise fails NoFutureSolution iff both roots are negative; otherwise
returns dt equal to the smallest non-negative root of a t^2 + b t + c = 0.
The hypotheses state that the sqrt oracle returns the non-negative square
root of the (non-negative) discriminant, as math.sqrt does. -/
theorem wayPointDt_spec (g : Geo) (d : Drifter) (gl : Glider) (w : Water)
    (p : Pattern)
    (hR0 : 0 ≤ g.sqrt (dtDisc g d gl w p))
    (hR2 : 0 ≤ dtDisc g d gl w p →
      g.sqrt (dtDisc g d gl w p) * g.sqrt (dtDisc g d gl w p) =
        dtDisc g d gl w p) :
    (wayPointDt g d gl w p = .error .NoSolution ↔ dtA d gl w = 0) ∧
    (wayPointDt g d gl w p = .error .NoRealSolution ↔
      dtA d gl w ≠ 0 ∧ dtDisc g d gl w p < 0) ∧
    (wayPointDt g d gl w p = .error .NoFutureSolution ↔
      dtA d gl w ≠ 0 ∧ 0 ≤ dtDisc g d gl w p ∧
      ∀ t : ℚ, dtA d gl w * t ^ 2 + dtB g d gl w p * t + dtC g d gl p = 0 →
        t < 0) ∧
    (∀ dt : ℚ, wayPointDt g d gl w p = .ok dt →
      dtA d gl w * dt ^ 2 + dtB g d gl w p * dt + dtC g d gl p = 0 ∧
      0 ≤ dt ∧
      ∀ t : ℚ, dtA d gl w * t ^ 2 + dtB g d gl w p * t + dtC g d gl p = 0 →
        0 ≤ t → dt ≤ t) := by
  by_cases hA : dtA d gl w = 0
  · have hrun : wayPointDt g d gl w p = .error .NoSolution := by
      unfold wayPointDt
      simp [hA]
    refine ⟨by simp [hrun, hA], by simp [hrun, hA], by simp [hrun, hA], ?_⟩
    intro dt hdt
    rw [hrun] at hdt
    exact absurd hdt (by simp)
  · by_cases hD : dtDisc g d gl w p < 0
    · have hrun : wayPointDt g d gl w p = .error .NoRealSolution := by
        unfold wayPointDt
        rw [if_neg hA, if_pos hD]
      refine ⟨by rw [hrun]; exact ⟨fun h => absurd h (by simp), fun h => absurd h hA⟩,
        by rw [hrun]; exact ⟨fun _ => ⟨hA, hD⟩, fun _ => rfl⟩,
        ?_, ?_⟩
      · rw [hrun]
        constructor
        · intro h
          exact absurd h (by simp)
        · rintro ⟨-, hle, -⟩
          exact absurd hle (not_le.mpr hD)
      · intro dt hdt
        rw [hrun] at hdt
        exact absurd hdt (by simp)
    · have hDpos : 0 ≤ dtDisc g d gl w p := not_lt.mp hD
      have hsq := hR2 hDpos
      have hroot : ∀ t : ℚ,
          dtA d gl w * t ^ 2 + dtB g d gl w p * t + dtC g d gl p = 0 ↔
          t = dtTp g d gl w p ∨ t = dtTm g d gl w p :=
        fun t => quadRootIff _ _ _ _ t hA (by rw [hsq]; rfl)
      set tp := dtTp g d gl w p with htp
      set tm := dtTm g d gl w p with htm
      have hrootp : dtA d gl w * tp ^ 2 + dtB g d gl w p * tp + dtC g d gl p = 0 :=
        (hroot tp).mpr (Or.inl rfl)
      have hrootm : dtA d gl w * tm ^ 2 + dtB g d gl w p * tm + dtC g d gl p = 0 :=
        (hroot tm).mpr (Or.inr rfl)
      have hrun : wayPointDt g d gl w p =
          (if tp < 0 then
            if tm < 0 then .error .NoFutureSolution else .ok tm
          else if tm < 0 then .ok tp
          else .ok (min tm tp)) := by
        unfold wayPointDt
        rw [if_neg hA, if_neg hD]
      by_cases hp : tp < 0
      · by_cases hm : tm < 0
        · have hout : wayPointDt g d gl w p = .error .NoFutureSolution := by
            rw [hrun, if_pos hp, if_pos hm]
          refine ⟨by rw [hout]; exact ⟨fun h => absurd h (by simp), fun h => absurd h hA⟩,
            by rw [hout]; exact ⟨fun h => absurd h (by simp), fun h => absurd h.2 hD⟩,
            ?_, ?_⟩
          · rw [hout]
            refine ⟨fun _ => ⟨hA, hDpos, fun t ht => ?_⟩, fun _ => rfl⟩
            rcases (hroot t).mp ht with h | h
            · exact h ▸ hp
            · exact h ▸ hm
          · intro dt hdt
            rw [hout] at hdt
            exact absurd hdt (by simp)
        · have hm0 : 0 ≤ tm := not_lt.mp hm
          have hout : wayPointDt g d gl w p = .ok tm := by
            rw [hrun, if_pos hp, if_neg hm]
          refine ⟨by rw [hout]; exact ⟨fun h => absurd h (by simp), fun h => absurd h hA⟩,
            by rw [hout]; exact ⟨fun h => absurd h (by simp), fun h => absurd h.2 (not_lt.mpr hDpos)⟩,
            ?_, ?_⟩
          · rw [hout]
            constructor
            · intro h
              exact absurd h (by simp)
            · rintro ⟨-, -, hneg⟩
              exact absurd (hneg tm hrootm) (not_lt.mpr hm0)
          · intro dt hdt
            rw [hout] at hdt
            injection hdt with hdt
            subst hdt
            refine ⟨hrootm, hm0, fun t ht ht0 => ?_⟩
            rcases (hroot t).mp ht with h | h
            · exact absurd (h ▸ ht0) (not_le.mpr hp)
            · exact le_of_eq h.symm
      · have hp0 : 0 ≤ tp := not_lt.mp hp
        by_cases hm : tm < 0
        · have hout : wayPointDt g d gl w p = .ok tp := by
            rw [hrun, if_neg hp, if_pos hm]
          refine ⟨by rw [hout]; exact ⟨fun h => absurd h (by simp), fun h => absurd h hA⟩,
            by rw [hout]; exact ⟨fun h => absurd h (by simp), fun h => absurd h.2 (not_lt.mpr hDpos)⟩,
            ?_, ?_⟩
          · rw [hout]
            constructor
            · intro h
              exact absurd h (by simp)
            · rintro ⟨-, -, hneg⟩
              exact absurd (hneg tp hrootp) (not_lt.mpr hp0)
          · intro dt hdt
            rw [hout] at hdt
            injection hdt with hdt
            subst hdt
            refine ⟨hrootp, hp0, fun t ht ht0 => ?_⟩
            rcases (hroot t).mp ht with h | h
            · exact le_of_eq h.symm
            · exact absurd (h ▸ ht0) (not_le.mpr hm)
        · have hm0 : 0 ≤ tm := not_lt.mp hm
          have hout : wayPointDt g d gl w p = .ok (min tm tp) := by
            rw [hrun, if_neg hp, if_neg hm]
          refine ⟨by rw [hout]; exact ⟨fun h => absurd h (by simp), fun h => absurd h hA⟩,
            by rw [hout]; exact ⟨fun h => absurd h (by simp), fun h => absurd h.2 (not_lt.mpr hDpos)⟩,
            ?_, ?_⟩
          · rw [hout]
            constructor
            · intro h
              exact absurd h (by simp)
            · rintro ⟨-, -, hneg⟩
              exact absurd (hneg tp hrootp) (not_lt.mpr hp0)
          · intro dt hdt
            rw [hout] at hdt
            injection hdt with hdt
            subst hdt
            refine ⟨?_, le_min hm0 hp0, fun t ht ht0 => ?_⟩
            · rcases min_cases tm tp with ⟨h, -⟩ | ⟨h, -⟩
              · rw [h]; exact hrootm
              · rw [h]; exact hrootp
            · rcases (hroot t).mp ht with h | h
              · exact h ▸ min_le_right tm tp
              · exact h ▸ min_le_left tm tp

/-- C1 witness: the solver characterization applied to a concrete scenario
with discriminant 100 (whose square root the oracle computes exactly). -/
theorem wayPointDt_spec_witness :
    (wayPointDt cG cD1 cGl1 cW0 cP34 = .error .NoSolution ↔
      dtA cD1 cGl1 cW0 = 0) ∧
    (wayPointDt cG cD1 cGl1 cW0 cP34 = .error .NoRealSolution ↔
      dtA cD1 cGl1 cW0 ≠ 0 ∧ dtDisc cG cD1 cGl1 cW0 cP34 < 0) :=
  ⟨(wayPointDt_spec cG cD1 cGl1 cW0 cP34
      (by norm_num [cG, dtDisc, dtA, dtB, dtC, d0Of, target0, Pt.dot,
        cD1, cGl1, cW0, cP34])
      (fun _ => by norm_num [cG, dtDisc, dtA, dtB, dtC, d0Of, target0, Pt.dot,
        cD1, cGl1, cW0, cP34])).1,
   (wayPointDt_spec cG cD1 cGl1 cW0 cP34
      (by norm_num [cG, dtDisc, dtA, dtB, dtC, d0Of, target0, Pt.dot,
        cD1, cGl1, cW0, cP34])
      (fun _ => by norm_num [cG, dtDisc, dtA, dtB, dtC, d0Of, target0, Pt.dot,
        cD1, cGl1, cW0, cP34])).2.1⟩

/-- Every successful solver call returns a non-negative time: each `.ok`
branch of WayPoint.__dt is guarded by the non-negativity of the value it
returns. -/
lemma wayPointDt_ok_nonneg (g : Geo) (d : Drifter) (gl : Glider) (w : Water)
    (p : Pattern) (q : ℚ) (h : wayPointDt g d gl w p = .ok q) : 0 ≤ q := by
  unfold wayPointDt at h
  split_ifs at h
  · injection h with h
    subst h
    exact not_lt.mp (by assumption)
  · injection h with h
    subst h
    exact not_lt.mp (by assumption)
  · injection h with h
    subst h
    exact le_min (not_lt.mp (by assumption)) (not_lt.mp (by assumption))

/-- A successfully built waypoint records the solver's dt. -/
lemma mkWayPoint_dt (g : Geo) (d : Drifter) (gl : Glider) (w : Water)
    (p : Pattern) (wpt : WayPoint) (h : mkWayPoint g d gl w p = .ok wpt) :
    wayPointDt g d gl w p = .ok wpt.dt := by
  unfold mkWayPoint at h
  cases hdt : wayPointDt g d gl w p with
  | error e =>
    rw [hdt] at h
    exact absurd h (by simp)
  | ok q =>
    rw [hdt] at h
    simp only at h
    injection h with h
    subst h
    simpa using hdt

/-- Appending a leg moves the recorded cumulative time to it. -/
lemma cumOf_concat (legs : List Leg) (x : Leg) : cumOf (legs ++ [x]) = x.2.1 := by
  unfold cumOf
  rw [List.getLast?_concat]

/-- The loop only ever appends to the accumulated leg list. -/
lemma loopGo_extends (g : Geo) (w : Water) (pats : List Pattern) (tgt : ℚ)
    (count : ℕ) :
    ∀ (fuel : ℕ) (drft : Drifter) (gld : Glider) (dtAcc : ℚ) (idx : ℕ)
      (legs out : List Leg),
      loopGo g w pats tgt count fuel drft gld dtAcc idx legs = .ok out →
      ∃ rest, out = legs ++ rest := by
  intro fuel
  induction fuel with
  | zero =>
    intro drft gld dtAcc idx legs out h
    unfold loopGo at h
    injection h with h
    exact ⟨[], by simp [← h]⟩
  | succ fuel ih =>
    intro drft gld dtAcc idx legs out h
    unfold loopGo at h
    split at h
    · split at h
      · exact absurd h (by simp)
      · split at h
        · exact absurd h (by simp)
        · rename_i wpt hwpt
          obtain ⟨rest, hr⟩ := ih _ _ _ _ _ _ h
          exact ⟨(wpt, dtAcc + wpt.dt, wrapIdx pats idx) :: rest,
            by rw [hr, List.append_assoc]; rfl⟩
    · injection h with h
      exact ⟨[], by simp [← h]⟩

/-- Invariant form of the stopping condition: starting from a state whose
leg count plus fuel equals wptsCount and whose accumulator equals the last
recorded cumulative time, a successful run ends at a state violating the
loop guard. -/
lemma loopGo_stop (g : Geo) (w : Water) (pats : List Pattern) (tgt : ℚ)
    (count : ℕ) :
    ∀ (fuel : ℕ) (drft : Drifter) (gld : Glider) (dtAcc : ℚ) (idx : ℕ)
      (legs out : List Leg),
      legs.length + fuel = count →
      dtAcc = cumOf legs →
      loopGo g w pats tgt count fuel drft gld dtAcc idx legs = .ok out →
      out.length ≤ count ∧
        ((tgt < cumOf out ∧ 2 ≤ out.length) ∨ out.length = count) := by
  intro fuel
  induction fuel with
  | zero =>
    intro drft gld dtAcc idx legs out hinv hcum h
    unfold loopGo at h
    injection h with h
    subst h
    exact ⟨by omega, Or.inr (by omega)⟩
  | succ fuel ih =>
    intro drft gld dtAcc idx legs out hinv hcum h
    unfold loopGo at h
    split at h
    · split at h
      · exact absurd h (by simp)
      · split at h
        · exact absurd h (by simp)
        · rename_i wpt hwpt
          refine ih _ _ _ _ _ _ ?_ ?_ h
          · simp only [List.length_append, List.length_singleton]
            omega
          · rw [cumOf_concat]
    · rename_i hg
      injection h with h
      subst h
      rw [not_and_or] at hg
      rcases hg with h1 | h2
      · rw [not_or] at h1
        obtain ⟨h1a, h1b⟩ := h1
        refine ⟨by omega, Or.inl ⟨?_, by omega⟩⟩
        rw [← hcum]
        exact not_le.mp h1a
      · exfalso
        omega

/-- C2: for every non-empty pattern catalog and maxLegs at least 1, when
every attempted leg solve succeeds (the run returns `.ok`), the
sequencer's leg-building loop returns between 1 and maxLegs legs,
stopping exactly when (cumulativeTime > targetDuration and legCount >= 2)
or legCount = maxLegs. -/
theorem wayPointsPlan_spec (g : Geo) (d : Drifter) (gl : Glider) (w : Water)
    (pats : List Pattern) (tgt : ℚ) (count : ℕ) (idx : ℕ) (legs : List Leg)
    (hpats : pats ≠ []) (hcount : 1 ≤ count)
    (hok : wayPointsPlan g d gl w pats tgt count idx = .ok legs) :
    1 ≤ legs.length ∧ legs.length ≤ count ∧
      ((tgt < cumOf legs ∧ 2 ≤ legs.length) ∨ legs.length = count) := by
  have hstop := loopGo_stop g w pats tgt count count d gl 0 idx [] legs
    (by simp) rfl hok
  refine ⟨?_, hstop.1, hstop.2⟩
  unfold wayPointsPlan at hok
  cases count with
  | zero => exact absurd hcount (by omega)
  | succ n =>
    unfold loopGo at hok
    split at hok
    · split at hok
      · exact absurd hok (by simp)
      · split at hok
        · exact absurd hok (by simp)
        · rename_i wpt hwpt
          obtain ⟨rest, hr⟩ := loopGo_extends _ _ _ _ _ _ _ _ _ _ _ _ hok
          rw [hr]
          simp
    · rename_i hg
      exact absurd ⟨Or.inr (by simp), by simp⟩ hg

/-- The loop preserves the non-decreasing chain of cumulative times,
because every appended leg adds a non-negative solver dt to the last
recorded cumulative time. -/
lemma loopGo_chain (g : Geo) (w : Water) (pats : List Pattern) (tgt : ℚ)
    (count : ℕ) :
    ∀ (fuel : ℕ) (drft : Drifter) (gld : Glider) (dtAcc : ℚ) (idx : ℕ)
      (legs out : List Leg),
      dtAcc = cumOf legs →
      legs.Chain' (fun a b => a.2.1 ≤ b.2.1) →
      loopGo g w pats tgt count fuel drft gld dtAcc idx legs = .ok out →
      out.Chain' (fun a b => a.2.1 ≤ b.2.1) := by
  intro fuel
  induction fuel with
  | zero =>
    intro drft gld dtAcc idx legs out hcum hchain h
    unfold loopGo at h
    injection h with h
    exact h ▸ hchain
  | succ fuel ih =>
    intro drft gld dtAcc idx legs out hcum hchain h
    unfold loopGo at h
    split at h
    · split at h
      · exact absurd h (by simp)
      · split at h
        · exact absurd h (by simp)
        · rename_i wpt hwpt
          refine ih _ _ _ _ _ _ (by rw [cumOf_concat]) ?_ h
          refine List.Chain'.append hchain (List.chain'_singleton _) ?_
          intro a ha b hb
          have hb2 : (wpt, dtAcc + wpt.dt, wrapIdx pats idx) = b := by
            simpa using hb
          have hlast : a.2.1 = cumOf legs := by
            rw [Option.mem_def] at ha
            simp [cumOf, ha]
          have hd0 : 0 ≤ wpt.dt :=
            wayPointDt_ok_nonneg _ _ _ _ _ _ (mkWayPoint_dt _ _ _ _ _ _ hwpt)
          rw [← hb2]
          simp only
          rw [hlast, ← hcum]
          linarith
    · injection h with h
      exact h ▸ hchain

/-- C3 amended: in every plan the sequencer returns, cumulative elapsed
time is non-decreasing across the legs (not strictly increasing: a leg
may be solved with dt = 0). -/
theorem wayPointsPlan_cum_monotone (g : Geo) (d : Drifter) (gl : Glider)
    (w : Water) (pats : List Pattern) (tgt : ℚ) (count : ℕ) (idx : ℕ)
    (legs : List Leg)
    (hok : wayPointsPlan g d gl w pats tgt count idx = .ok legs) :
    legs.Chain' (fun a b => a.2.1 ≤ b.2.1) :=
  loopGo_chain g w pats tgt count count d gl 0 idx [] legs rfl
    List.chain'_nil hok

/-- getD to the left of an append. -/
lemma getD_append_lt {α : Type} (l l2 : List α) (d : α) (j : ℕ)
    (h : j < l.length) : (l ++ l2).getD j d = l.getD j d := by
  induction l generalizing j with
  | nil => simp at h
  | cons a l ih =>
    cases j with
    | zero => rfl
    | succ j =>
      simp only [List.cons_append, List.getD_cons_succ]
      exact ih j (by simpa using h)

/-- getD at the appended position. -/
lemma getD_concat_self {α : Type} (l : List α) (x : α) (d : α) :
    (l ++ [x]).getD l.length d = x := by
  induction l with
  | nil => rfl
  | cons a l ih => simpa using ih

/-- The loop records pattern indices cyclically: when the incoming index
is at most the catalog length and congruent to b plus the number of legs
built so far, every final leg j carries index (b + j) mod the catalog
length. -/
lemma loopGo_idx (g : Geo) (w : Water) (pats : List Pattern) (tgt : ℚ)
    (count : ℕ) (hne : pats ≠ []) :
    ∀ (fuel : ℕ) (drft : Drifter) (gld : Glider) (dtAcc : ℚ) (idx b : ℕ)
      (legs out : List Leg),
      idx ≤ pats.length →
      idx % pats.length = (b + legs.length) % pats.length →
      (∀ j, j < legs.length →
        (legs.getD j dLeg).2.2 = (b + j) % pats.length) →
      loopGo g w pats tgt count fuel drft gld dtAcc idx legs = .ok out →
      ∀ j, j < out.length → (out.getD j dLeg).2.2 = (b + j) % pats.length := by
  have hlen : 0 < pats.length := List.length_pos.mpr hne
  intro fuel
  induction fuel with
  | zero =>
    intro drft gld dtAcc idx b legs out hle hmod hlegs h
    unfold loopGo at h
    injection h with h
    exact h ▸ hlegs
  | succ fuel ih =>
    intro drft gld dtAcc idx b legs out hle hmod hlegs h
    unfold loopGo at h
    split at h
    · split at h
      · exact absurd h (by simp)
      · split at h
        · exact absurd h (by simp)
        · rename_i wpt hwpt
          have hiw : wrapIdx pats idx = idx % pats.length := by
            unfold wrapIdx
            split
            · rename_i hc
              have hix : idx = pats.length := le_antisymm hle hc
              rw [hix, Nat.mod_self]
            · rename_i hc
              rw [Nat.mod_eq_of_lt (not_le.mp hc)]
          refine ih _ _ _ _ _ _ _ ?_ ?_ ?_ h
          · rw [hiw]
            have := Nat.mod_lt idx hlen
            omega
          · rw [hiw, List.length_append, List.length_singleton, hmod]
            have e1 : (b + legs.length) % pats.length + 1 ≡
                b + (legs.length + 1) [MOD pats.length] := by
              have e0 := (Nat.mod_modEq (b + legs.length) pats.length).add_right 1
              simpa [Nat.add_assoc] using e0
            exact e1
          · intro j hj
            rw [List.length_append, List.length_singleton] at hj
            rcases Nat.lt_succ_iff_lt_or_eq.mp hj with hjl | hje
            · rw [getD_append_lt _ _ _ _ hjl]
              exact hlegs j hjl
            · subst hje
              rw [getD_concat_self]
              simp only
              rw [hiw, hmod]
    · injection h with h
      exact h ▸ hlegs

/-- C10: for every startIndex at least the pattern catalog length (with a
non-empty catalog), the sequencer resets the working index to 0 before
building the first leg, so leg j uses pattern index j mod the catalog
length — in particular the first leg uses index 0, not startIndex mod
length — with subsequent legs advancing cyclically. -/
theorem wayPointsPlan_big_index (g : Geo) (d : Drifter) (gl : Glider)
    (w : Water) (pats : List Pattern) (tgt : ℚ) (count : ℕ) (idx : ℕ)
    (legs : List Leg) (hne : pats ≠ []) (hidx : pats.length ≤ idx)
    (hok : wayPointsPlan g d gl w pats tgt count idx = .ok legs) :
    ∀ j, j < legs.length → (legs.getD j dLeg).2.2 = j % pats.length := by
  have hlen : 0 < pats.length := List.length_pos.mpr hne
  unfold wayPointsPlan at hok
  cases count with
  | zero =>
    unfold loopGo at hok
    injection hok with hok
    intro j hj
    rw [← hok] at hj
    simp at hj
  | succ n =>
    unfold loopGo at hok
    split at hok
    · split at hok
      · exact absurd hok (by simp)
      · split at hok
        · exact absurd hok (by simp)
        · rename_i wpt hwpt
          have hiw : wrapIdx pats idx = 0 := by
            unfold wrapIdx
            rw [if_pos hidx]
          have hall := loopGo_idx g w pats tgt (n+1) hne n _ _ _
            (wrapIdx pats idx + 1) 0
            [(wpt, 0 + wpt.dt, wrapIdx pats idx)] legs
            (by rw [hiw]; omega)
            (by simp [hiw])
            ?_ hok
          · intro j hj
            have := hall j hj
            simpa using this
          · intro j hj
            simp only [List.length_singleton] at hj
            have hj0 : j = 0 := by omega
            subst hj0
            simp [List.getD, hiw]
    · rename_i hg
      exact absurd ⟨Or.inr (by simp), by simp⟩ hg

/-- Concrete run of the sequencer on the trivial scenario: drifter and
glider co-located and at rest, zero pattern offset, so every leg solves
with dt = 0 and the loop runs to the leg-count bound. -/
lemma planTrivEval :
    wayPointsPlan cG cD1 cGl1 cW0 [cPat0] 10 2 0 =
      .ok [(cWptTriv, 0, 0), (cWptTriv, 0, 0)] := by
  norm_num [wayPointsPlan, loopGo, wrapIdx, mkWayPoint, wayPointDt, dtA, dtB,
    dtC, dtDisc, dtTp, dtTm, d0Of, target0, translate, Pt.dot, Pt.smul, cG,
    cD1, cGl1, cW0, cPat0, cWptTriv]

/-- C2 witness: the sequencer bound and stop condition at a concrete run
with maxLegs = 2. -/
theorem wayPointsPlan_spec_witness :
    1 ≤ ([(cWptTriv, 0, 0), (cWptTriv, 0, 0)] : List Leg).length ∧
    ([(cWptTriv, 0, 0), (cWptTriv, 0, 0)] : List Leg).length ≤ 2 ∧
    ((10 < cumOf [(cWptTriv, 0, 0), (cWptTriv, 0, 0)] ∧
      2 ≤ ([(cWptTriv, 0, 0), (cWptTriv, 0, 0)] : List Leg).length) ∨
      ([(cWptTriv, 0, 0), (cWptTriv, 0, 0)] : List Leg).length = 2) :=
  wayPointsPlan_spec cG cD1 cGl1 cW0 [cPat0] 10 2 0
    [(cWptTriv, 0, 0), (cWptTriv, 0, 0)] (by simp) (by norm_num) planTrivEval

/-- C3 counterexample: a plan the sequencer returns whose consecutive
cumulative times are equal (0 and 0), refuting strict monotonicity. -/
theorem wayPointsPlan_cum_not_strict_cex :
    wayPointsPlan cG cD1 cGl1 cW0 [cPat0] 10 2 0 =
      .ok [(cWptTriv, 0, 0), (cWptTriv, 0, 0)] ∧
    ¬ ([(cWptTriv, 0, 0), (cWptTriv, 0, 0)] : List Leg).Chain'
        (fun a b => a.2.1 < b.2.1) :=
  ⟨planTrivEval, by simp⟩

/-- C3 witness: the non-decreasing chain at the concrete run. -/
theorem wayPointsPlan_cum_monotone_witness :
    ([(cWptTriv, 0, 0), (cWptTriv, 0, 0)] : List Leg).Chain'
      (fun a b => a.2.1 ≤ b.2.1) :=
  wayPointsPlan_cum_monotone cG cD1 cGl1 cW0 [cPat0] 10 2 0
    [(cWptTriv, 0, 0), (cWptTriv, 0, 0)] planTrivEval

/-- Concrete run with a two-pattern catalog and startIndex 5 beyond the
catalog: the first leg records pattern index 0 (not 5 mod 2 = 1), the
second advances to 1. -/
lemma planTwoPatsEval :
    wayPointsPlan cG cD1 cGl1 cW0 [cPat0, cPat0] 10 2 5 =
      .ok [(cWptTriv, 0, 0), (cWptTriv, 0, 1)] := by
  norm_num [wayPointsPlan, loopGo, wrapIdx, mkWayPoint, wayPointDt, dtA, dtB,
    dtC, dtDisc, dtTp, dtTm, d0Of, target0, translate, Pt.dot, Pt.smul, cG,
    cD1, cGl1, cW0, cPat0, cWptTriv]

/-- C10 witness: with startIndex 5 and a 2-pattern catalog, the first
leg's pattern index is 0 mod 2 = 0. -/
theorem wayPointsPlan_big_index_witness :
    (([(cWptTriv, 0, 0), (cWptTriv, 0, 1)] : List Leg).getD 0 dLeg).2.2 =
      0 % 2 := by
  have h := wayPointsPlan_big_index cG cD1 cGl1 cW0 [cPat0, cPat0] 10 2 5
    [(cWptTriv, 0, 0), (cWptTriv, 0, 1)] (by simp) (by simp) planTwoPatsEval
    0 (by simp)
  simpa using h

/-- The first minimum index is inside the list. -/
lemma firstMinIdx_lt_length (l : List ℚ) (h : l ≠ []) :
    firstMinIdx l < l.length := by
  induction l with
  | nil => simp at h
  | cons x l ih =>
    cases l with
    | nil => simp [firstMinIdx]
    | cons y rest =>
      unfold firstMinIdx
      split
      · have hlt := ih (by simp)
        simpa using Nat.succ_lt_succ hlt
      · simp

/-- The value at the first minimum index is a lower bound. -/
lemma firstMinIdx_le (l : List ℚ) :
    ∀ k, k < l.length → l.getD (firstMinIdx l) 0 ≤ l.getD k 0 := by
  induction l with
  | nil =>
    intro k hk
    simp at hk
  | cons x l ih =>
    cases l with
    | nil =>
      intro k hk
      have hk0 : k = 0 := by simpa using hk
      subst hk0
      simp [firstMinIdx]
    | cons y rest =>
      intro k hk
      unfold firstMinIdx
      split
      · rename_i hlt
        rw [List.getD_cons_succ]
        cases k with
        | zero =>
          rw [List.getD_cons_zero]
          exact le_of_lt hlt
        | succ k =>
          rw [List.getD_cons_succ]
          exact ih k (by simpa using hk)
      · rename_i hge
        cases k with
        | zero => simp
        | succ k =>
          rw [List.getD_cons_zero, List.getD_cons_succ]
          exact (not_lt.mp hge).trans (ih k (by simpa using hk))

/-- Entries before the first minimum index are strictly larger. -/
lemma firstMinIdx_lt_val (l : List ℚ) :
    ∀ k, k < firstMinIdx l → l.getD (firstMinIdx l) 0 < l.getD k 0 := by
  induction l with
  | nil =>
    intro k hk
    simp [firstMinIdx] at hk
  | cons x l ih =>
    cases l with
    | nil =>
      intro k hk
      simp [firstMinIdx] at hk
    | cons y rest =>
      intro k hk
      by_cases hc : (y :: rest).getD (firstMinIdx (y :: rest)) 0 < x
      · unfold firstMinIdx at hk ⊢
        rw [if_pos hc] at hk ⊢
        rw [List.getD_cons_succ]
        cases k with
        | zero =>
          rw [List.getD_cons_zero]
          exact hc
        | succ k =>
          rw [List.getD_cons_succ]
          exact ih k (Nat.lt_of_succ_lt_succ hk)
      · unfold firstMinIdx at hk
        rw [if_neg hc] at hk
        simp at hk

/-- Closed form of the search loop when every remaining solve succeeds:
the accumulator is replaced exactly when the remaining suffix contains a
dt strictly below the current minimum, and the first such minimum wins. -/
lemma fcAux_all_ok (g : Geo) (d : Drifter) (gl : Glider) (w : Water) :
    ∀ (rest : List Pattern) (i : ℕ) (tMin : ℚ) (bidx : ℕ),
      (∀ p ∈ rest, ∃ q, wayPointDt g d gl w p = .ok q) →
      fcAux g d gl w rest i (some (tMin, bidx)) =
        .ok (some (
          if rest ≠ [] ∧
              (rest.map (solvedDt g d gl w)).getD
                (firstMinIdx (rest.map (solvedDt g d gl w))) 0 < tMin
          then i + firstMinIdx (rest.map (solvedDt g d gl w))
          else bidx)) := by
  intro rest
  induction rest with
  | nil =>
    intro i tMin bidx hall
    simp [fcAux]
  | cons p rest2 ih =>
    intro i tMin bidx hall
    obtain ⟨q, hq⟩ := hall p (by simp)
    have hsp : solvedDt g d gl w p = q := by
      simp [solvedDt, hq]
    have hall2 : ∀ p2 ∈ rest2, ∃ q2, wayPointDt g d gl w p2 = .ok q2 :=
      fun p2 hp2 => hall p2 (by simp [hp2])
    unfold fcAux
    rw [hq]
    simp only
    cases rest2 with
    | nil =>
      by_cases hqt : q < tMin
      · rw [if_pos hqt]
        simp [fcAux, firstMinIdx, hsp, hqt]
      · rw [if_neg hqt]
        simp [fcAux, firstMinIdx, hsp, hqt]
    | cons r rest3 =>
      have hne2 : (r :: rest3 : List Pattern) ≠ [] := by simp
      set dts2 := (r :: rest3).map (solvedDt g d gl w) with hdts2
      have hdts2ne : dts2 ≠ [] := by simp [hdts2]
      set m2 := firstMinIdx dts2 with hm2
      set v2 := dts2.getD m2 0 with hv2
      have hcons : (p :: r :: rest3).map (solvedDt g d gl w) = q :: dts2 := by
        simp [hdts2, hsp]
      have hfmi : firstMinIdx (q :: dts2) =
          if v2 < q then m2 + 1 else 0 := by
        obtain ⟨z, zs, hz⟩ : ∃ z zs, dts2 = z :: zs := by
          cases hx : dts2 with
          | nil => exact absurd hx hdts2ne
          | cons z zs => exact ⟨z, zs, rfl⟩
        rw [hz]
        simp only [firstMinIdx]
        rw [← hz, ← hm2, ← hv2]
      have hval : (q :: dts2).getD (firstMinIdx (q :: dts2)) 0 =
          if v2 < q then v2 else q := by
        rw [hfmi]
        by_cases hvq : v2 < q
        · rw [if_pos hvq, if_pos hvq, List.getD_cons_succ]
        · rw [if_neg hvq, if_neg hvq, List.getD_cons_zero]
      by_cases hqt : q < tMin
      · rw [if_pos hqt, ih (i + 1) q i hall2]
        rw [hcons, hval, hfmi]
        by_cases hvq : v2 < q
        · rw [if_pos hvq, if_pos hvq, if_pos (show (r :: rest3 : List Pattern)
            ≠ [] ∧ v2 < q from ⟨hne2, hvq⟩), if_pos (show (p :: r :: rest3 :
            List Pattern) ≠ [] ∧ v2 < tMin from ⟨by simp, hvq.trans hqt⟩)]
          have hadd : i + 1 + m2 = i + (m2 + 1) := by omega
          rw [hadd]
        · rw [if_neg hvq, if_neg hvq,
            if_neg (show ¬((r :: rest3 : List Pattern) ≠ [] ∧ v2 < q) from
              fun hx => hvq hx.2),
            if_pos (show (p :: r :: rest3 : List Pattern) ≠ [] ∧ q < tMin from
              ⟨by simp, hqt⟩)]
          have hadd : i = i + 0 := by omega
          rw [← hadd]
      · rw [if_neg hqt, ih (i + 1) tMin bidx hall2]
        rw [hcons, hval, hfmi]
        by_cases hvt : v2 < tMin
        · have hvq : v2 < q := lt_of_lt_of_le hvt (not_lt.mp hqt)
          rw [if_pos hvq, if_pos hvq,
            if_pos (show (r :: rest3 : List Pattern) ≠ [] ∧ v2 < tMin from
              ⟨hne2, hvt⟩),
            if_pos (show (p :: r :: rest3 : List Pattern) ≠ [] ∧ v2 < tMin from
              ⟨by simp, hvt⟩)]
          have hadd : i + 1 + m2 = i + (m2 + 1) := by omega
          rw [hadd]
        · rw [if_neg (show ¬((r :: rest3 : List Pattern) ≠ [] ∧ v2 < tMin)
            from fun hx => hvt hx.2)]
          by_cases hvq : v2 < q
          · rw [if_pos hvq, if_pos hvq,
              if_neg (show ¬((p :: r :: rest3 : List Pattern) ≠ [] ∧
                v2 < tMin) from fun hx => hvt hx.2)]
          · rw [if_neg hvq, if_neg hvq,
              if_neg (show ¬((p :: r :: rest3 : List Pattern) ≠ [] ∧
                q < tMin) from fun hx => hqt hx.2)]

/-- C7 amended: the closest-in-time start-index search does not skip a
failing pattern: a solver failure propagates out of the search.  When
every pattern's solve succeeds, the search returns the index of the
pattern with the smallest dt, first minimum on ties. -/
theorem findClosest_all_ok (g : Geo) (d : Drifter) (gl : Glider) (w : Water)
    (pats : List Pattern) (hne : pats ≠ [])
    (hall : ∀ p ∈ pats, ∃ q, wayPointDt g d gl w p = .ok q) :
    findClosest g d gl w pats =
      .ok (some (firstMinIdx (pats.map (solvedDt g d gl w)))) ∧
    (∀ k, k < pats.length →
      (pats.map (solvedDt g d gl w)).getD
          (firstMinIdx (pats.map (solvedDt g d gl w))) 0 ≤
        (pats.map (solvedDt g d gl w)).getD k 0) ∧
    (∀ k, k < firstMinIdx (pats.map (solvedDt g d gl w)) →
      (pats.map (solvedDt g d gl w)).getD
          (firstMinIdx (pats.map (solvedDt g d gl w))) 0 <
        (pats.map (solvedDt g d gl w)).getD k 0) := by
  refine ⟨?_, ?_, fun k hk => firstMinIdx_lt_val _ k hk⟩
  · cases pats with
    | nil => exact absurd rfl hne
    | cons p rest2 =>
      obtain ⟨q, hq⟩ := hall p (by simp)
      have hsp : solvedDt g d gl w p = q := by
        simp [solvedDt, hq]
      have hall2 : ∀ p2 ∈ rest2, ∃ q2, wayPointDt g d gl w p2 = .ok q2 :=
        fun p2 hp2 => hall p2 (by simp [hp2])
      unfold findClosest fcAux
      rw [hq]
      simp only
      rw [fcAux_all_ok g d gl w rest2 1 q 0 hall2]
      cases rest2 with
      | nil => simp [firstMinIdx, hsp]
      | cons r rest3 =>
        set dts2 := (r :: rest3).map (solvedDt g d gl w) with hdts2
        set m2 := firstMinIdx dts2 with hm2
        set v2 := dts2.getD m2 0 with hv2
        have hcons : (p :: r :: rest3).map (solvedDt g d gl w) = q :: dts2 := by
          simp [hdts2, hsp]
        have hfmi : firstMinIdx (q :: dts2) =
            if v2 < q then m2 + 1 else 0 := by
          obtain ⟨z, zs, hz⟩ : ∃ z zs, dts2 = z :: zs := by
            cases hx : dts2 with
            | nil => simp [hdts2] at hx
            | cons z zs => exact ⟨z, zs, rfl⟩
          rw [hz]
          simp only [firstMinIdx]
          rw [← hz, ← hm2, ← hv2]
        rw [hcons, hfmi]
        by_cases hvq : v2 < q
        · rw [if_pos ⟨by simp, hvq⟩, if_pos hvq,
            show 1 + m2 = m2 + 1 from by omega]
        · rw [if_neg (by rintro ⟨-, hx⟩; exact hvq hx), if_neg hvq]
  · intro k hk
    exact firstMinIdx_le _ k (by simpa using hk)

/-- C7 counterexample: with a catalog whose first pattern makes the
solver fail (NoRealSolution) while the second solves with dt 0, the
search propagates the failure instead of skipping to the succeeding
pattern. -/
theorem findClosest_propagates_cex :
    findClosest cG cDfast cGl0 cW0 [cPup, cPat0] = .error .NoRealSolution ∧
    wayPointDt cG cDfast cGl0 cW0 cPat0 = .ok 0 := by
  constructor <;>
    norm_num [findClosest, fcAux, wayPointDt, dtA, dtB, dtC, dtDisc, dtTp,
      dtTm, d0Of, target0, Pt.dot, cG, cDfast, cGl0, cW0, cPup, cPat0]

/-- C7 witness for the amended claim: with catalog [offset (3,4) with dt
5, zero offset with dt 0], every solve succeeds and the search returns
the first-minimum index. -/
theorem findClosest_all_ok_witness :
    findClosest cG cD1 cGl1 cW0 [cP34, cPat0] =
      .ok (some (firstMinIdx ([cP34, cPat0].map (solvedDt cG cD1 cGl1 cW0)))) :=
  (findClosest_all_ok cG cD1 cGl1 cW0 [cP34, cPat0] (by simp) (by
    intro p hp
    simp only [List.mem_cons, List.mem_singleton, List.not_mem_nil,
      or_false] at hp
    rcases hp with h | h
    · subst h
      exact ⟨5, by norm_num [wayPointDt, dtA, dtB, dtC, dtDisc, dtTp, dtTm,
        d0Of, target0, Pt.dot, cG, cD1, cGl1, cW0, cP34]⟩
    · subst h
      exact ⟨0, by norm_num [wayPointDt, dtA, dtB, dtC, dtDisc, dtTp, dtTm,
        d0Of, target0, Pt.dot, cG, cD1, cGl1, cW0, cPat0]⟩)).1

/-- getD through zip at an in-range position. -/
lemma getD_zip {α β : Type} (d1 : α) (d2 : β) :
    ∀ (l1 : List α) (l2 : List β) (i : ℕ), i < l1.length → i < l2.length →
      (l1.zip l2).getD i (d1, d2) = (l1.getD i d1, l2.getD i d2) := by
  intro l1
  induction l1 with
  | nil =>
    intro l2 i h1 h2
    simp at h1
  | cons a l1 ih =>
    intro l2 i h1 h2
    cases l2 with
    | nil => simp at h2
    | cons b l2 =>
      cases i with
      | zero => rfl
      | succ i =>
        simp only [List.zip_cons_cons, List.getD_cons_succ]
        exact ih l2 i (by simpa using h1) (by simpa using h2)

/-- The comparison loop on positionally identical pairs accumulates the
records' dt values and keeps maxDist at 0. -/
lemma cfLoop_ident (g : Geo) (radius : ℚ) (hrad : 0 ≤ radius)
    (hdist0 : ∀ x, g.dist x x = 0) :
    ∀ (pairs : List (Leg × PrevRec)) (tot : ℚ),
      (∀ pr ∈ pairs, pr.1.2.2 = pr.2.index ∧
        pr.2.lat = pr.1.1.wpt.lat ∧ pr.2.lon = pr.1.1.wpt.lon) →
      cfLoop g radius pairs tot 0 =
        some (tot + (pairs.map (fun pr => pr.2.dt)).sum, 0) := by
  intro pairs
  induction pairs with
  | nil =>
    intro tot h
    simp [cfLoop]
  | cons pr rest ih =>
    intro tot h
    obtain ⟨leg, r⟩ := pr
    obtain ⟨hidx, hlat, hlon⟩ := h (leg, r) (by simp)
    dsimp only at hidx hlat hlon
    have hpteq : (⟨r.lat, r.lon⟩ : LatLon) = leg.1.wpt := by
      rw [hlat, hlon]
    unfold cfLoop
    rw [if_neg (by simp [hidx]), hpteq, hdist0, if_neg (not_lt.mpr hrad)]
    rw [max_self, ih (tot + r.dt) (fun pr2 hpr2 => h pr2 (by simp [hpr2]))]
    simp [add_assoc]

/-- The comparison loop fails as soon as a compared distance exceeds the
radius, provided the pairs up to that point match positionally. -/
lemma cfLoop_fail (g : Geo) (radius : ℚ) :
    ∀ (pairs : List (Leg × PrevRec)) (k : ℕ) (tot mx : ℚ),
      k < pairs.length →
      (∀ i, i ≤ k → (pairs.getD i (dLeg, dRec)).1.2.2 =
        (pairs.getD i (dLeg, dRec)).2.index) →
      (∀ i, i < k → g.dist ((pairs.getD i (dLeg, dRec)).1.1.wpt)
        ⟨(pairs.getD i (dLeg, dRec)).2.lat,
         (pairs.getD i (dLeg, dRec)).2.lon⟩ ≤ radius) →
      radius < g.dist ((pairs.getD k (dLeg, dRec)).1.1.wpt)
        ⟨(pairs.getD k (dLeg, dRec)).2.lat,
         (pairs.getD k (dLeg, dRec)).2.lon⟩ →
      cfLoop g radius pairs tot mx = none := by
  intro pairs
  induction pairs with
  | nil =>
    intro k tot mx hk
    simp at hk
  | cons pr rest ih =>
    intro k tot mx hk hidxs hclose hfar
    obtain ⟨leg, r⟩ := pr
    have hidx0 : leg.2.2 = r.index := hidxs 0 (Nat.zero_le k)
    cases k with
    | zero =>
      unfold cfLoop
      rw [if_neg (by simp [hidx0])]
      rw [if_pos (by simpa using hfar)]
    | succ k =>
      have hd0 : g.dist leg.1.wpt ⟨r.lat, r.lon⟩ ≤ radius := by
        simpa using hclose 0 (Nat.succ_pos k)
      unfold cfLoop
      rw [if_neg (by simp [hidx0]), if_neg (not_lt.mpr hd0)]
      exact ih k _ _ (by simpa using hk)
        (fun i hi => by simpa using hidxs (i + 1) (by omega))
        (fun i hi => by simpa using hclose (i + 1) (by omega))
        (by simpa using hfar)

/-- The suffix scan returns None when no element's pattern index matches
the first leg's. -/
lemma ceLoop_none (g : Geo) (radius minDur : ℚ) (self : List Leg)
    (iSelf : ℕ) :
    ∀ (l : List PrevRec),
      (∀ j, j < l.length → (l.getD j dRec).index ≠ iSelf) →
      ceLoop g radius minDur self iSelf l = none := by
  intro l
  induction l with
  | nil =>
    intro h
    rfl
  | cons r rest ih =>
    intro h
    unfold ceLoop
    rw [if_neg (by simpa using h 0 (Nat.succ_pos _))]
    exact ih (fun j hj => by
      simpa using h (j + 1) (by simpa using Nat.succ_lt_succ hj))

/-- C9: if the latest historical record matches the new plan positionally
(same pattern indices, identical intercept points) and the matched
records' summed dt reaches minDuration, the stability filter returns
Some 0 (suppress).  If instead one compared intercept point lies farther
than matchRadius from its counterpart (indices matching up to it), and no
other suffix of the record aligns with the first leg's pattern index, the
filter returns None (emit). -/
theorem closeEnough_spec (g : Geo) (radius minDur : ℚ) (self : List Leg)
    (prev : List PrevRec) :
    (0 ≤ radius →
     (∀ x, g.dist x x = 0) →
     self ≠ [] →
     prev.length = self.length →
     (∀ pr ∈ self.zip prev, pr.1.2.2 = pr.2.index ∧
        pr.2.lat = pr.1.1.wpt.lat ∧ pr.2.lon = pr.1.1.wpt.lon) →
     minDur ≤ (prev.map PrevRec.dt).sum →
     closeEnough g radius minDur self prev = some 0) ∧
    (∀ k : ℕ,
     (∀ j, j < prev.length →
        (prev.getD j dRec).index = (self.getD 0 dLeg).2.2 → j = 0) →
     k < prev.length → k < self.length →
     (∀ i, i ≤ k → (self.getD i dLeg).2.2 = (prev.getD i dRec).index) →
     (∀ i, i < k → g.dist ((self.getD i dLeg).1.wpt)
        ⟨(prev.getD i dRec).lat, (prev.getD i dRec).lon⟩ ≤ radius) →
     radius < g.dist ((self.getD k dLeg).1.wpt)
        ⟨(prev.getD k dRec).lat, (prev.getD k dRec).lon⟩ →
     closeEnough g radius minDur self prev = none) := by
  constructor
  · intro hrad hdist0 hselfne hlen hmatch htot
    obtain ⟨l0, selfR, hself⟩ : ∃ l0 selfR, self = l0 :: selfR := by
      cases self with
      | nil => exact absurd rfl hselfne
      | cons l0 selfR => exact ⟨l0, selfR, rfl⟩
    obtain ⟨r0, prevR, hprev⟩ : ∃ r0 prevR, prev = r0 :: prevR := by
      cases prev with
      | nil =>
        rw [hself] at hlen
        simp at hlen
      | cons r0 prevR => exact ⟨r0, prevR, rfl⟩
    subst hself hprev
    have hm0 := hmatch (l0, r0) (by simp)
    unfold closeEnough ceLoop
    rw [if_pos hm0.1.symm]
    have hsum : ((l0 :: selfR).zip (r0 :: prevR)).map
        (fun pr => pr.2.dt) = (r0 :: prevR).map PrevRec.dt := by
      have hmap : ((l0 :: selfR).zip (r0 :: prevR)).map
          (fun pr => pr.2.dt) =
          (((l0 :: selfR).zip (r0 :: prevR)).map Prod.snd).map
            PrevRec.dt := by
        rw [List.map_map]
        rfl
      rw [hmap, List.map_snd_zip _ _ (le_of_eq hlen)]
    unfold checkForward
    rw [cfLoop_ident g radius hrad hdist0 _ 0 hmatch, hsum]
    simp only [zero_add]
    rw [if_pos htot]
  · intro k honly hk1 hk2 hidxs hclose hfar
    obtain ⟨l0, selfR, hself⟩ : ∃ l0 selfR, self = l0 :: selfR := by
      cases self with
      | nil => simp at hk2
      | cons l0 selfR => exact ⟨l0, selfR, rfl⟩
    obtain ⟨r0, prevR, hprev⟩ : ∃ r0 prevR, prev = r0 :: prevR := by
      cases prev with
      | nil => simp at hk1
      | cons r0 prevR => exact ⟨r0, prevR, rfl⟩
    subst hself hprev
    have hzlen : k < ((l0 :: selfR).zip (r0 :: prevR)).length := by
      rw [List.length_zip]
      omega
    have hzget : ∀ i, i < (l0 :: selfR).length → i < (r0 :: prevR).length →
        ((l0 :: selfR).zip (r0 :: prevR)).getD i (dLeg, dRec) =
          ((l0 :: selfR).getD i dLeg, (r0 :: prevR).getD i dRec) :=
      fun i h1 h2 => getD_zip dLeg dRec _ _ i h1 h2
    have hcf : checkForward g radius minDur (l0 :: selfR) (r0 :: prevR) =
        none := by
      unfold checkForward
      rw [cfLoop_fail g radius _ k 0 0 hzlen ?_ ?_ ?_]
      · intro i hi
        rw [hzget i (by omega) (by omega)]
        exact hidxs i hi
      · intro i hi
        rw [hzget i (by omega) (by omega)]
        exact hclose i hi
      · rw [hzget k (by omega) (by omega)]
        exact hfar
    unfold closeEnough ceLoop
    have hidx0 : r0.index = l0.2.2 := by
      have h := hidxs 0 (Nat.zero_le k)
      simpa using h.symm
    rw [if_pos hidx0, hcf]
    simp only
    refine ceLoop_none g radius minDur _ _ prevR (fun j hj hj2 => ?_)
    have := honly (j + 1) (by simpa using Nat.succ_lt_succ hj)
      (by simpa using hj2)
    omega

/-- C9 witness: an identical one-leg history with dt 60 >= minDuration 50
is suppressed with maximum deviation 0; moving the recorded intercept
point 1 degree north (111 km > matchRadius 100 m) makes the filter emit. -/
theorem closeEnough_spec_witness :
    closeEnough cG 100 50 [(cWptTriv, 0, 0)] [cRecSame] = some 0 ∧
    closeEnough cG 100 50 [(cWptTriv, 0, 0)] [cRecFar] = none := by
  constructor
  · refine (closeEnough_spec cG 100 50 [(cWptTriv, 0, 0)] [cRecSame]).1
      (by norm_num) (fun x => by simp [cG]) (by simp) (by simp) ?_
      (by norm_num [cRecSame])
    intro pr hpr
    simp only [List.zip_cons_cons, List.zip_nil_right, List.mem_singleton]
      at hpr
    subst hpr
    refine ⟨rfl, ?_, ?_⟩ <;> norm_num [cRecSame, cWptTriv]
  · refine (closeEnough_spec cG 100 50 [(cWptTriv, 0, 0)] [cRecFar]).2
      0 ?_ (by simp) (by simp) ?_ (by omega) ?_
    · intro j hj hidx
      simpa using hj
    · intro i hi
      interval_cases i
      norm_num [cRecFar, cWptTriv]
    · norm_num [cG, cRecFar, cWptTriv, dLeg, dRec]

/-- The fold seed is a lower bound of foldl max. -/
lemma le_foldl_max (xs : List ℚ) : ∀ acc : ℚ, acc ≤ xs.foldl max acc := by
  induction xs with
  | nil =>
    intro acc
    exact le_refl _
  | cons y ys ih =>
    intro acc
    exact (le_max_left acc y).trans (ih (max acc y))

/-- Every member is a lower bound of foldl max. -/
lemma mem_le_foldl_max (xs : List ℚ) :
    ∀ (acc a : ℚ), a ∈ xs → a ≤ xs.foldl max acc := by
  induction xs with
  | nil =>
    intro acc a ha
    simp at ha
  | cons y ys ih =>
    intro acc a ha
    rcases List.mem_cons.mp ha with h | h
    · subst h
      exact (le_max_right acc a).trans (le_foldl_max ys _)
    · exact ih _ a h

/-- Every member is at most maxOf. -/
lemma le_maxOf (l : List ℚ) (a : ℚ) (ha : a ∈ l) : a ≤ maxOf l := by
  cases l with
  | nil => simp at ha
  | cons x xs =>
    rcases List.mem_cons.mp ha with h | h
    · subst h
      exact le_foldl_max xs a
    · exact mem_le_foldl_max xs x a h

/-- foldl max is the seed or a member. -/
lemma foldl_max_mem (xs : List ℚ) :
    ∀ acc : ℚ, xs.foldl max acc = acc ∨ xs.foldl max acc ∈ xs := by
  induction xs with
  | nil =>
    intro acc
    exact Or.inl rfl
  | cons y ys ih =>
    intro acc
    rcases ih (max acc y) with h | h
    · rcases max_choice acc y with h2 | h2
      · exact Or.inl (by rw [List.foldl_cons, h, h2])
      · refine Or.inr ?_
        rw [List.foldl_cons, h, h2]
        simp
    · refine Or.inr ?_
      rw [List.foldl_cons]
      exact List.mem_cons_of_mem _ h

/-- maxOf of a non-empty list is attained. -/
lemma maxOf_mem (l : List ℚ) (h : l ≠ []) : maxOf l ∈ l := by
  cases l with
  | nil => exact absurd rfl h
  | cons x xs =>
    rcases foldl_max_mem xs x with h2 | h2
    · rw [show maxOf (x :: xs) = xs.foldl max x from rfl, h2]
      simp
    · exact List.mem_cons_of_mem _ h2

/-- maxOf of a non-empty constant list is that constant. -/
lemma maxOf_allsame (l : List ℚ) (c : ℚ) (hne : l ≠ [])
    (h : ∀ x ∈ l, x = c) : maxOf l = c :=
  h _ (maxOf_mem l hne)

/-- getD through map at an in-range position. -/
lemma getD_map {α β : Type} (f : α → β) (d0 : β) (d1 : α) :
    ∀ (l : List α) (i : ℕ), i < l.length →
      (l.map f).getD i d0 = f (l.getD i d1) := by
  intro l
  induction l with
  | nil =>
    intro i h
    simp at h
  | cons a l ih =>
    intro i h
    cases i with
    | zero => rfl
    | succ i =>
      simp only [List.map_cons, List.getD_cons_succ]
      exact ih i (by simpa using h)

/-- getD through zipWith at an in-range position. -/
lemma getD_zipWith (f : ℚ → ℚ → ℚ) (d : ℚ) :
    ∀ (l1 l2 : List ℚ) (i : ℕ), i < l1.length → i < l2.length →
      (List.zipWith f l1 l2).getD i d = f (l1.getD i d) (l2.getD i d) := by
  intro l1
  induction l1 with
  | nil =>
    intro l2 i h1 h2
    simp at h1
  | cons a l1 ih =>
    intro l2 i h1 h2
    cases l2 with
    | nil => simp at h2
    | cons b l2 =>
      cases i with
      | zero => rfl
      | succ i =>
        simp only [List.zipWith_cons_cons, List.getD_cons_succ]
        exact ih l2 i (by simpa using h1) (by simpa using h2)

/-- Pointwise products of positive lists are positive. -/
lemma zipWith_mul_pos :
    ∀ (l1 l2 : List ℚ), (∀ a ∈ l1, 0 < a) → (∀ b ∈ l2, 0 < b) →
      ∀ c ∈ List.zipWith (fun a b => a * b) l1 l2, 0 < c := by
  intro l1
  induction l1 with
  | nil =>
    intro l2 h1 h2 c hc
    simp at hc
  | cons a l1 ih =>
    intro l2 h1 h2 c hc
    cases l2 with
    | nil => simp at hc
    | cons b l2 =>
      simp only [List.zipWith_cons_cons, List.mem_cons] at hc
      rcases hc with h | h
      · subst h
        exact mul_pos (h1 a (by simp)) (h2 b (by simp))
      · exact ih l2 (fun x hx => h1 x (by simp [hx]))
          (fun x hx => h2 x (by simp [hx])) c h

/-- Dividing a list of positive entries by its maximum lands in (0,1]
with the maximum mapped to exactly 1. -/
lemma normalized_pos (comb : List ℚ) (hne : comb ≠ [])
    (hpos : ∀ v ∈ comb, 0 < v) :
    (∀ wv ∈ comb.map (fun v => v / maxOf comb), 0 < wv ∧ wv ≤ 1) ∧
    (∃ wv ∈ comb.map (fun v => v / maxOf comb), wv = 1) := by
  have hmax_pos : 0 < maxOf comb := hpos _ (maxOf_mem comb hne)
  constructor
  · intro wv hwv
    simp only [List.mem_map] at hwv
    obtain ⟨v, hv, hvw⟩ := hwv
    rw [← hvw]
    exact ⟨div_pos (hpos v hv) hmax_pos,
      (div_le_one hmax_pos).mpr (le_maxOf comb v hv)⟩
  · exact ⟨maxOf comb / maxOf comb,
      List.mem_map.mpr ⟨maxOf comb, maxOf_mem comb hne, rfl⟩,
      div_self (ne_of_gt hmax_pos)⟩

/-- A weighted sum over an all-zero value list is zero. -/
lemma wsum2_zero : ∀ (ws xs : List ℚ), (∀ x ∈ xs, x = 0) →
    wsum2 ws xs = 0 := by
  intro ws
  induction ws with
  | nil =>
    intro xs h
    rfl
  | cons wv ws ih =>
    intro xs h
    cases xs with
    | nil => rfl
    | cons x xs =>
      have hx : x = 0 := h x (by simp)
      unfold wsum2
      rw [hx, mul_zero, zero_add]
      exact ih xs (fun y hy => h y (by simp [hy]))

/-- A triple sum vanishes when its x arguments are all zero and f
vanishes at x = 0. -/
lemma sum3_xzero (f : ℚ → ℚ → ℚ → ℚ) (hf : ∀ wv y, f wv 0 y = 0) :
    ∀ (ws xs ys : List ℚ), (∀ x ∈ xs, x = 0) → sum3 f ws xs ys = 0 := by
  intro ws
  induction ws with
  | nil =>
    intro xs ys h
    rfl
  | cons wv ws ih =>
    intro xs ys h
    cases xs with
    | nil => rfl
    | cons x xs =>
      cases ys with
      | nil => rfl
      | cons y ys =>
        have hx : x = 0 := h x (by simp)
        unfold sum3
        rw [hx, hf wv y, zero_add]
        exact ih xs ys (fun z hz => h z (by simp [hz]))

/-- The weighted least-squares slope over an all-zero regressor is 0,
matching lstsq's minimum-norm convention for a degenerate design. -/
lemma wlsSlope_xzero (ws xs ys : List ℚ) (h : ∀ x ∈ xs, x = 0) :
    wlsSlope ws xs ys = 0 := by
  have hxb : wmean ws xs = 0 := by
    unfold wmean
    rw [wsum2_zero ws xs h, zero_div]
  simp only [wlsSlope, hxb]
  have hden : sum3 (fun wv x _ => wv * (x - 0) ^ 2) ws xs xs = 0 := by
    refine sum3_xzero _ (fun wv y => by ring) ws xs xs ?_
    intro x hx
    exact h x hx
  rw [hden]
  simp

/-- C4 counterexample: the estimator does not fail with fewer than 2
fixes (a single fix yields a state) nor with all-identical timestamps
(two fixes sharing t = 5 yield a state). -/
theorem estimate_no_failure_cex :
    ([cFixA] : List Fix).length < 2 ∧
    estimate cG 600 900 [cFixA] ≠ none ∧
    cFixB.t = cFixB2.t ∧
    estimate cG 600 900 [cFixB, cFixB2] ≠ none := by
  refine ⟨by norm_num, by simp [estimate], by norm_num [cFixB, cFixB2],
    by simp [estimate]⟩

/-- C4 amended: the estimator returns no state exactly when zero fixes
are supplied; a fix history whose timestamps are all identical is not
rejected — the degenerate fit produces a state with zero velocity (the
regression slope is 0 by the minimum-norm convention, and the geodesic
distance from a point to itself is 0). -/
theorem estimate_amended (g : Geo) (tau tQuery : ℚ) (rows : List Fix) :
    (estimate g tau tQuery rows = none ↔ rows = []) ∧
    ((∀ r ∈ rows, ∀ s ∈ rows, r.t = s.t) →
     (∀ x, g.dist x x = 0) →
     rows ≠ [] →
     (estimate g tau tQuery rows).map (fun i => (i.vx, i.vy)) =
       some (0, 0)) := by
  constructor
  · cases rows with
    | nil => simp [estimate]
    | cons r0 rest => simp [estimate]
  · intro hts hdist0 hne
    obtain ⟨r0, rest, hrr⟩ : ∃ r0 rest, rows = r0 :: rest := by
      cases rows with
      | nil => exact absurd rfl hne
      | cons r0 rest => exact ⟨r0, rest, rfl⟩
    subst hrr
    have hdts : ∀ x ∈ fixDts (r0 :: rest), x = 0 := by
      intro x hx
      simp only [fixDts, List.mem_map] at hx
      obtain ⟨r, hr, hrx⟩ := hx
      have hmax : maxOf ((r0 :: rest).map Fix.t) = r0.t := by
        refine maxOf_allsame _ _ (by simp) ?_
        intro x2 hx2
        simp only [List.mem_map] at hx2
        obtain ⟨s, hs, hsx⟩ := hx2
        rw [← hsx]
        exact hts s hs r0 (by simp)
      rw [← hrx, hmax, hts r hr r0 (by simp), sub_self]
    have hsl : latSlopeOf g tau (r0 :: rest) = 0 := by
      unfold latSlopeOf
      exact wlsSlope_xzero _ _ _ hdts
    have hsl2 : lonSlopeOf g tau (r0 :: rest) = 0 := by
      unfold lonSlopeOf
      exact wlsSlope_xzero _ _ _ hdts
    simp [estimate, hsl, hsl2, hdist0]

/-- C4 witness: two fixes sharing timestamp 5 produce a state with zero
velocity instead of a DegenerateFit failure. -/
theorem estimate_amended_witness :
    (estimate cG 600 900 [cFixB, cFixB2]).map (fun i => (i.vx, i.vy)) =
      some (0, 0) :=
  (estimate_amended cG 600 900 [cFixB, cFixB2]).2
    (by
      intro r hr s hs
      simp only [List.mem_cons, List.not_mem_nil, or_false] at hr hs
      rcases hr with h | h <;> rcases hs with h2 | h2 <;> subst h <;>
        subst h2 <;> norm_num [cFixB, cFixB2])
    (fun x => by simp [cG])
    (by simp)

/-- C5: the code evaluated at a southward-drifting fix history: the
latitude regression slope is negative, yet the returned vy is the
(positive) geodesic magnitude 1.11 m/s — the velocity's sign is lost,
contradicting the sign-preserving conversion the spec states. -/
theorem estimate_vy_sign_bug :
    latSlopeOf cG 600 [cFixA, cFixOld] < 0 ∧
    (estimate cG 600 900 [cFixA, cFixOld]).map DrifterInfo.vy =
      some (111 / 100) := by
  constructor
  · norm_num [estimate, latSlopeOf, lonSlopeOf, axisWeights, accW, fixDts,
      maxOf, wsum2, wmean, sum3, wlsSlope, cG, cFixA, cFixOld]
  · norm_num [estimate, latSlopeOf, lonSlopeOf, axisWeights, accW, fixDts,
      maxOf, wsum2, wmean, sum3, wlsSlope, cG, cFixA, cFixOld]
    rw [show |(1 : ℚ) / 100000| = 1 / 100000 from abs_of_pos (by norm_num)]
    norm_num

/-- C6: each per-axis regression weight is the accuracy weight
1/(accuracy/metersPerDegree)^2 normalized by its maximum, multiplied by
exp(dt/tau), the product normalized again by its own maximum; with
non-zero accuracies and scale and a positive exp, every final weight
lies in (0,1] and at least one equals 1. -/
theorem axisWeights_spec (g : Geo) (perDeg tau : ℚ) (rows : List Fix)
    (hne : rows ≠ [])
    (hpd : perDeg ≠ 0)
    (hacc : ∀ r ∈ rows, r.accuracy ≠ 0)
    (hexp : ∀ q : ℚ, 0 < g.exp q) :
    (∀ i, i < rows.length →
      (axisWeights g perDeg tau rows).getD i 0 =
        ((accW perDeg (rows.getD i dFix) /
            maxOf (rows.map (accW perDeg))) *
          g.exp ((fixDts rows).getD i 0 / tau)) /
          maxOf (List.zipWith (fun a b => a * b)
            ((rows.map (accW perDeg)).map
              (fun v => v / maxOf (rows.map (accW perDeg))))
            ((fixDts rows).map (fun dtv => g.exp (dtv / tau))))) ∧
    (∀ wv ∈ axisWeights g perDeg tau rows, 0 < wv ∧ wv ≤ 1) ∧
    (∃ wv ∈ axisWeights g perDeg tau rows, wv = 1) := by
  have hacc2 : ∀ v ∈ rows.map (accW perDeg), 0 < v := by
    intro v hv
    simp only [List.mem_map] at hv
    obtain ⟨r, hr, hrv⟩ := hv
    rw [← hrv]
    unfold accW
    have hne0 : r.accuracy / perDeg ≠ 0 := div_ne_zero (hacc r hr) hpd
    have h2 : 0 < (r.accuracy / perDeg) ^ 2 := by positivity
    exact div_pos one_pos h2
  have hwa_ne : rows.map (accW perDeg) ≠ [] := by
    intro hcon
    exact hne (List.map_eq_nil.mp hcon)
  have hmaxwa_pos : 0 < maxOf (rows.map (accW perDeg)) :=
    hacc2 _ (maxOf_mem _ hwa_ne)
  have hwan_pos : ∀ v ∈ (rows.map (accW perDeg)).map
      (fun v => v / maxOf (rows.map (accW perDeg))), 0 < v := by
    intro v hv
    simp only [List.mem_map] at hv
    obtain ⟨a, ha, hav⟩ := hv
    obtain ⟨r, hr, hra⟩ := ha
    rw [← hav, ← hra]
    exact div_pos (hacc2 _ (List.mem_map.mpr ⟨r, hr, rfl⟩)) hmaxwa_pos
  have hwt_pos : ∀ v ∈ (fixDts rows).map (fun dtv => g.exp (dtv / tau)),
      0 < v := by
    intro v hv
    simp only [List.mem_map] at hv
    obtain ⟨dtv, hdtv, hv2⟩ := hv
    rw [← hv2]
    exact hexp _
  have hcomb_pos : ∀ c ∈ List.zipWith (fun a b => a * b)
      ((rows.map (accW perDeg)).map
        (fun v => v / maxOf (rows.map (accW perDeg))))
      ((fixDts rows).map (fun dtv => g.exp (dtv / tau))), 0 < c :=
    zipWith_mul_pos _ _ hwan_pos hwt_pos
  have hcomb_len : (List.zipWith (fun a b => a * b)
      ((rows.map (accW perDeg)).map
        (fun v => v / maxOf (rows.map (accW perDeg))))
      ((fixDts rows).map (fun dtv => g.exp (dtv / tau)))).length =
      rows.length := by
    simp [fixDts]
  have hcomb_ne : List.zipWith (fun a b => a * b)
      ((rows.map (accW perDeg)).map
        (fun v => v / maxOf (rows.map (accW perDeg))))
      ((fixDts rows).map (fun dtv => g.exp (dtv / tau))) ≠ [] := by
    intro hcon
    rw [← List.length_eq_zero] at hcon
    rw [hcomb_len] at hcon
    exact hne (List.length_eq_zero.mp hcon)
  have hnorm := normalized_pos _ hcomb_ne hcomb_pos
  refine ⟨?_, hnorm.1, hnorm.2⟩
  intro i hi
  simp only [axisWeights]
  rw [getD_map _ 0 0 _ i (by rw [hcomb_len]; exact hi)]
  rw [getD_zipWith _ 0 _ _ i (by simpa using hi) (by simp [fixDts]; exact hi)]
  rw [getD_map _ 0 0 _ i (by simpa using hi)]
  rw [getD_map (accW perDeg) 0 dFix _ i hi]
  rw [getD_map _ 0 0 _ i (by simp [fixDts]; exact hi)]

/-- C6 witness: the (0,1] bound applied to the first weight of a
concrete two-fix history under the concrete oracle. -/
theorem axisWeights_spec_witness :
    0 < (axisWeights cG 111000 600 [cFixA, cFixOld]).getD 0 0 ∧
    (axisWeights cG 111000 600 [cFixA, cFixOld]).getD 0 0 ≤ 1 :=
  (axisWeights_spec cG 111000 600 [cFixA, cFixOld] (by simp) (by norm_num)
    (by
      intro r hr
      simp only [List.mem_cons, List.not_mem_nil, or_false] at hr
      rcases hr with h | h <;> subst h <;> norm_num [cFixA, cFixOld])
    (fun q => by norm_num [cG])).2.1 _
    (by
      have hv : (axisWeights cG 111000 600 [cFixA, cFixOld]) = [1, 1] := by
        norm_num [axisWeights, accW, fixDts, maxOf, cG, cFixA, cFixOld]
      rw [hv]
      simp [hv])

end GSat

